import Mathlib

/-!
# Verification of the `ncd` directory-jump resolver

This file is a shallow embedding, in Lean 4, of the core resolution
pipeline of the `ncd` command-line directory jumper (`src/main.rs`),
together with theorems checking the natural-language specification of
that pipeline against the code.

Modelling conventions (fixed throughout):

* We embed the non-Windows build configuration of the source:
  `DOS_SEPARATOR = '/'`, `UNIX_SEPARATOR = '/'`, and
  `DRIVE_SEPARATOR = char::MAX` (an unused sentinel).
* A filesystem path (`PathBuf`) is modelled by `NPath`: a flag saying
  whether the path is absolute plus its list of name components.  The
  paths manipulated by the pipeline are already component-normalised,
  so this representation is faithful for every operation the code
  performs on them (`pop`, `parent`, `join`, `file_name`).
* The filesystem and process environment are an explicit `FS` value:
  a set of existing directories (stored with their on-disk casing and
  looked up case-insensitively, i.e. a case-preserving, case-folding
  filesystem such as the Windows/NTFS one the tool targets), a set of
  directories whose contents cannot be read (`read_dir` fails), the
  current working directory (modelled as always available), and the
  `CDPATH` entries.
* Fallible process actions are explicit: `read_dir` returns an
  `Option`, `canonicalize` returns an `Option`, and functions that can
  terminate the process through `report_ambiguity` return an `Except`.
* The `regex` crate is modelled by a small regular-expression AST
  covering exactly the constructs that the glob translation in
  `SearchEngine::new` can emit from pattern text drawn from literal
  characters plus `.`, `?`, `*` and `+`: literal atoms, the any-char
  atom, and the postfix `*` / `+` quantifiers.  Pattern text using
  further regex metacharacters (classes, groups, alternation,
  escapes of alphanumerics) is outside the modelled fragment and is
  mapped to a failed compilation; theorems about the engine therefore
  restrict their pattern alphabets accordingly.  The case-insensitive
  flag of the regex builder, and Rust's `str::to_lowercase`, are both
  modelled by `Char.toLower` folding.
-/

/-! ## Strings and characters -/

/-- The separator characters of the non-Windows build:
`PATH_SEPARATORS = &[DOS_SEPARATOR, UNIX_SEPARATOR] = ['/', '/']`. -/
def PATH_SEPARATORS : List Char := ['/', '/']

/-- `DRIVE_SEPARATOR` in the non-Windows build is `char::MAX`. -/
def DRIVE_SEPARATOR : Char := Char.ofNat 1114111

/-- Whitespace as used by the modelled `str::trim`. -/
def isWsp (c : Char) : Bool := c == ' ' || c == '\t' || c == '\n' || c == '\r'

/-- Model of Rust `str::trim` (restricted to ASCII whitespace). -/
def rustTrim (s : String) : String :=
  String.mk (((s.data.dropWhile isWsp).reverse.dropWhile isWsp).reverse)

/-- Model of Rust `str::to_lowercase` (simple per-character folding). -/
def lowerStr (s : String) : String := String.mk (s.data.map Char.toLower)

/-- Split a character list at separator characters, keeping empty pieces,
mirroring Rust `str::split(PATH_SEPARATORS)`. -/
def splitSeps : List Char → List (List Char)
  | [] => [[]]
  | c :: rest =>
    let r := splitSeps rest
    if c ∈ PATH_SEPARATORS then [] :: r
    else
      match r with
      | [] => [[c]]
      | h :: t => (c :: h) :: t

/-- String-level wrapper of `splitSeps`. -/
def splitSlash (s : String) : List String := (splitSeps s.data).map String.mk

/-- Does the string start with a path separator?  Models both
`query.starts_with(std::path::is_separator)` and
`path.starts_with(|c| PATH_SEPARATORS.contains(&c))`, which agree in the
non-Windows configuration. -/
def startsWithSepChar (s : String) : Bool :=
  match s.data with
  | [] => false
  | c :: _ => c ∈ PATH_SEPARATORS

/-! ## Paths -/

/-- A component-normalised filesystem path: an absoluteness flag and the
list of name components.  `⟨true, []⟩` is the filesystem root `/`;
`⟨false, []⟩` is the empty (relative) path. -/
structure NPath where
  isAbs : Bool
  comps : List String
deriving DecidableEq

/-- Model of `PathBuf::parent`: `none` for the root and for the empty
relative path, otherwise the path with its last component removed. -/
def NPath.parent (p : NPath) : Option NPath :=
  match p.comps with
  | [] => none
  | _ => some ⟨p.isAbs, p.comps.dropLast⟩

/-- Model of `PathBuf::pop`: truncate to the parent and report success,
or leave the path alone and report failure. -/
def NPath.pop (p : NPath) : NPath × Bool :=
  match p.parent with
  | some q => (q, true)
  | none => (p, false)

/-- Model of `PathBuf::join` with a path argument: an absolute argument
replaces the receiver, a relative one is appended. -/
def NPath.join (p q : NPath) : NPath :=
  if q.isAbs then q else ⟨p.isAbs, p.comps ++ q.comps⟩

/-- Append a single name component (the path of a directory entry,
`entry.path()`). -/
def NPath.join1 (p : NPath) (n : String) : NPath := ⟨p.isAbs, p.comps ++ [n]⟩

/-- Parse a string into an `NPath` (model of `PathBuf::from` /
`Path::new` for separator-and-name strings). -/
def parsePath (s : String) : NPath :=
  ⟨startsWithSepChar s, (splitSlash s).filter (fun c => c ≠ "")⟩

/-- Model of `PathBuf::join` with a string argument. -/
def NPath.joinStr (p : NPath) (s : String) : NPath := p.join (parsePath s)

/-- Model of `Path::file_name().map(to_string_lossy).unwrap_or_default()`:
the last component, or `""` when there is none. -/
def NPath.fileName (p : NPath) : String := (p.comps.getLast?).getD ""

/-- Render a path back to a string (model of `Path::display`). -/
def pathToString (p : NPath) : String :=
  if p.isAbs then String.mk ('/' :: (String.intercalate "/" p.comps).data)
  else String.intercalate "/" p.comps

/-- Strip trailing separators (`trim_end_matches(PATH_SEPARATORS)`). -/
def trimEndSeps (s : String) : String :=
  String.mk ((s.data.reverse.dropWhile (fun c => c ∈ PATH_SEPARATORS)).reverse)

/-! ## The filesystem and environment model -/

/-- The filesystem and process environment as the pipeline observes it:

* `dirs` — the existing directories, each stored as the absolute list of
  its components with its on-disk casing; the root `[]` is expected to
  be a member.  Lookups are case-insensitive but case-preserving.
* `unreadable` — stored directories on which `read_dir` fails
  (permission errors and the like).
* `cwd` — the components of the current working directory (modelled as
  always retrievable).
* `cdpath` — the entries of the `CDPATH` environment variable, in
  order, as paths. -/
structure FS where
  dirs : List (List String)
  unreadable : List (List String)
  cwd : List String
  cdpath : List NPath
deriving DecidableEq

/-- The current working directory as a path (`env::current_dir`). -/
def FS.cwdPath (fs : FS) : NPath := ⟨true, fs.cwd⟩

/-- Resolve a path against the current directory to absolute components
(the kernel's name resolution for relative paths). -/
def FS.resolve (fs : FS) (p : NPath) : List String :=
  if p.isAbs then p.comps else fs.cwd ++ p.comps

/-- Case-insensitive directory lookup returning the stored (on-disk)
casing, `none` when no such directory exists. -/
def FS.lookup (fs : FS) (p : List String) : Option (List String) :=
  fs.dirs.find? (fun d => d.map lowerStr == p.map lowerStr)

/-- Model of `Path::is_dir`. -/
def FS.isDir (fs : FS) (p : NPath) : Bool := (fs.lookup (fs.resolve p)).isSome

/-- Model of `Path::canonicalize`: succeeds exactly on existing
directories and returns the absolute path in its on-disk casing. -/
def FS.canonicalize (fs : FS) (p : NPath) : Option NPath :=
  (fs.lookup (fs.resolve p)).map (fun d => ⟨true, d⟩)

/-- The ubiquitous source idiom
`path.canonicalize().unwrap_or_else(|_| path.clone())`. -/
def canonOrSelf (fs : FS) (p : NPath) : NPath := (fs.canonicalize p).getD p

/-- Model of `std::fs::read_dir` followed by `entries.flatten()`: the
child names of an existing, readable directory in storage order;
`none` when the directory does not exist or cannot be read (per-entry
errors are modelled by the entry's absence from the listing). -/
def FS.readDir (fs : FS) (p : List String) : Option (List String) :=
  match fs.lookup p with
  | none => none
  | some d =>
    if d ∈ fs.unreadable then none
    else some (fs.dirs.filterMap (fun e =>
      if e.length = d.length + 1 ∧ e.take d.length = d then e.getLast? else none))

/-! ## Search options (`SearchOptions`) -/

/-- `CdMode`: how `CDPATH` entries are treated. -/
inductive CdMode where
  | Origin
  | Target
  | Hybrid
deriving DecidableEq

/-- `DirMatch`: plain or fuzzy name comparison for directory scans. -/
inductive DirMatch where
  | AsIs
  | Fuzzy
deriving DecidableEq

/-- `SearchOptions`: the consolidated search-pipeline state. -/
structure SearchOptions where
  mode : CdMode
  exact : Bool
  list : Bool
  dir_match : DirMatch
  mock_path : Option NPath
deriving DecidableEq

/-! ## Ellipsis handling -/

/-- `trim_to_elipses`: if the string consists solely of dots and spaces,
keep only the dots; otherwise return it unchanged. -/
def trim_to_elipses (path : String) : String :=
  let is_nav := path.data.all (fun c => c == '.' || c == ' ')
  if is_nav then String.mk (path.data.filter (fun c => c == '.')) else path

/-- `is_ellipsis`: more than one character, all dots, after
`trim_to_elipses`. -/
def is_ellipsis (head : String) : Bool :=
  let dir := trim_to_elipses head
  decide (dir.length > 1) && dir.data.all (fun c => c == '.')

/-- The absolutisation step at the top of `handle_ellipsis`:
an absolute base is kept; a relative one is canonicalised, and if that
fails it is joined onto the current directory
(`env::current_dir().unwrap_or_default().join(base)`, with
`current_dir` modelled as always available). -/
def absolutizeBase (fs : FS) (base : NPath) : NPath :=
  if base.isAbs then base
  else (fs.canonicalize base).getD (fs.cwdPath.join base)

/-- The pop loop of `handle_ellipsis`: pop up to `n` times, stopping
early when `pop` reports failure. -/
def popLoop : Nat → NPath → NPath
  | 0, p => p
  | n + 1, p =>
    match p.pop with
    | (q, true) => popLoop n q
    | (_, false) => p

/-- `handle_ellipsis`: absolutise the base, then pop `len - 1` parents. -/
def handle_ellipsis (fs : FS) (segment : String) (base : NPath) : List NPath :=
  let current := absolutizeBase fs base
  [popLoop (segment.length - 1) current]

/-! ## The pattern engine (`SearchEngine`) -/

/-- An atom of the modelled regular-expression fragment: a literal
character or the any-character dot. -/
inductive RAtom where
  | lit (c : Char)
  | any
deriving DecidableEq

/-- A piece of the modelled regular-expression fragment: an atom taken
once, under a `*` quantifier, or under a `+` quantifier. -/
inductive RPiece where
  | once (a : RAtom)
  | star (a : RAtom)
  | plus (a : RAtom)
deriving DecidableEq

/-- The glob-to-regex text transformation of `SearchEngine::new`,
applied in source order: escape dots, then `?` to `.`, then `*` to
`.*`. -/
def transformGlob (l : List Char) : List Char :=
  let p1 := (l.map (fun c => if c = '.' then ['\\', '.'] else [c])).flatten
  let p2 := p1.map (fun c => if c = '?' then '.' else c)
  ((p2.map (fun c => if c = '*' then ['.', '*'] else [c])).flatten)

/-- Regex metacharacters outside the modelled fragment: pattern text
containing one of these (unescaped) is mapped to a failed compilation. -/
def unsupportedMeta : List Char :=
  ['*', '+', '?', '(', ')', '[', ']', '{', '}', '|', '^', '$', '\\']

/-- Parser for the modelled regular-expression fragment, mirroring how
the `regex` crate reads the transformed pattern between the `^` and `$`
anchors: an escaped punctuation character or `.` or an ordinary
character forms an atom, an immediately following `*` or `+`
quantifies it. `none` models a failed `RegexBuilder::build`. -/
def parseRegex : List Char → Option (List RPiece)
  | [] => some []
  | '\\' :: [] => none
  | '\\' :: c :: '*' :: rest =>
    if c.isAlphanum then none
    else (parseRegex rest).map (fun ps => RPiece.star (RAtom.lit c) :: ps)
  | '\\' :: c :: '+' :: rest =>
    if c.isAlphanum then none
    else (parseRegex rest).map (fun ps => RPiece.plus (RAtom.lit c) :: ps)
  | '\\' :: c :: rest =>
    if c.isAlphanum then none
    else (parseRegex rest).map (fun ps => RPiece.once (RAtom.lit c) :: ps)
  | '.' :: '*' :: rest => (parseRegex rest).map (fun ps => RPiece.star RAtom.any :: ps)
  | '.' :: '+' :: rest => (parseRegex rest).map (fun ps => RPiece.plus RAtom.any :: ps)
  | '.' :: rest => (parseRegex rest).map (fun ps => RPiece.once RAtom.any :: ps)
  | c :: '*' :: rest =>
    if c ∈ unsupportedMeta then none
    else (parseRegex rest).map (fun ps => RPiece.star (RAtom.lit c) :: ps)
  | c :: '+' :: rest =>
    if c ∈ unsupportedMeta then none
    else (parseRegex rest).map (fun ps => RPiece.plus (RAtom.lit c) :: ps)
  | c :: rest =>
    if c ∈ unsupportedMeta then none
    else (parseRegex rest).map (fun ps => RPiece.once (RAtom.lit c) :: ps)

/-- Does an atom match one character? -/
def RAtom.matches : RAtom → Char → Bool
  | .lit d, c => c == d
  | .any, _ => true

/-- Fuelled whole-string matcher for the modelled regex fragment (the
anchored `^pattern$` semantics).  Every recursive call strictly
decreases `pieces.length + chars.length`, so fuel
`pieces.length + chars.length + 1` is always sufficient. -/
def rmatchF : Nat → List RPiece → List Char → Bool
  | 0, _, _ => false
  | _ + 1, [], [] => true
  | _ + 1, [], _ :: _ => false
  | _ + 1, .once _ :: _, [] => false
  | f + 1, .once a :: ps, c :: cs => a.matches c && rmatchF f ps cs
  | f + 1, .star a :: ps, cs =>
    rmatchF f ps cs ||
      (match cs with
       | [] => false
       | c :: cs' => a.matches c && rmatchF f (.star a :: ps) cs')
  | _ + 1, .plus _ :: _, [] => false
  | f + 1, .plus a :: ps, c :: cs => a.matches c && rmatchF f (.star a :: ps) cs

/-- Whole-string matching with sufficient fuel. -/
def rmatch (ps : List RPiece) (cs : List Char) : Bool :=
  rmatchF (ps.length + cs.length + 1) ps cs

/-- Case folding of a piece, modelling the `case_insensitive` regex
builder flag (a no-op when `exact` holds). -/
def RPiece.fold (exact : Bool) : RPiece → RPiece
  | .once (RAtom.lit c) => .once (RAtom.lit (if exact then c else c.toLower))
  | .star (RAtom.lit c) => .star (RAtom.lit (if exact then c else c.toLower))
  | .plus (RAtom.lit c) => .plus (RAtom.lit (if exact then c else c.toLower))
  | p => p

/-- `SearchEngine`: the per-fragment matcher state. -/
structure SearchEngine where
  query : String
  query_lower : String
  is_wildcard : Bool
  exact : Bool
  re : Option (List RPiece)
deriving DecidableEq

/-- `SearchEngine::new`: wildcard detection and pattern compilation. -/
def SearchEngine.new (name : String) (exact : Bool) : SearchEngine :=
  let is_wildcard := name.data.contains '*' || name.data.contains '?'
  let re := if is_wildcard then parseRegex (transformGlob name.data) else none
  ⟨name, lowerStr name, is_wildcard, exact, re⟩

/-- `re.is_match(name)` for a compiled pattern, under the engine's
case-sensitivity. -/
def SearchEngine.reMatch (e : SearchEngine) (ps : List RPiece) (name : String) : Bool :=
  let ps' := ps.map (RPiece.fold e.exact)
  let n' := if e.exact then name.data else name.data.map Char.toLower
  rmatch ps' n'

/-- `get_disk_casing`: the on-disk casing of the final component, or
`""` when canonicalisation fails or there is no final component. -/
def get_disk_casing (fs : FS) (p : NPath) : String :=
  match fs.canonicalize p with
  | none => ""
  | some q => q.fileName

/-- `SearchEngine::check_direct`: existence of `root/query` as a
directory plus, under `exact`, the on-disk casing truth check. -/
def SearchEngine.check_direct (e : SearchEngine) (fs : FS) (root : NPath) : Option NPath :=
  let path := root.joinStr e.query
  if ¬ fs.isDir path then none
  else if e.exact && get_disk_casing fs path != e.query then none
  else some path

/-- `SearchEngine::matches_path`: match a path's final component. -/
def SearchEngine.matches_path (e : SearchEngine) (p : NPath) : Bool :=
  let name := p.fileName
  match e.re with
  | some re => e.reMatch re name
  | none => if e.exact then name == e.query else lowerStr name == e.query_lower

/-- The per-entry match test of `SearchEngine::scan_dir`. -/
def SearchEngine.isMatchName (e : SearchEngine) (opts : SearchOptions) (name : String) : Bool :=
  match e.re with
  | some re => e.reMatch re name
  | none =>
    if e.exact then name == e.query
    else
      let nl := lowerStr name
      if opts.dir_match = DirMatch.Fuzzy then
        nl == e.query_lower || e.query_lower.data.isPrefixOf nl.data
      else nl == e.query_lower

/-- `SearchEngine::scan_dir`: list the root's entries (skipping an
unreadable root entirely), keep directories whose name matches. -/
def SearchEngine.scan_dir (e : SearchEngine) (fs : FS) (opts : SearchOptions)
    (root : NPath) : List NPath :=
  match fs.readDir (fs.resolve root) with
  | none => []
  | some names =>
    names.foldl (fun acc n =>
      if ¬ fs.isDir (root.join1 n) then acc
      else if e.isMatchName opts n then acc ++ [root.join1 n] else acc) []

/-! ## Root enumeration (`get_search_roots`) -/

/-- `get_search_roots`: with a mock (scope-override) path, exactly that
path; otherwise the current directory followed by the `CDPATH` entries,
dropping an entry when its canonical form was already contributed by an
earlier `CDPATH` entry (the current directory is deliberately pushed
without registering it in the seen-set). -/
def get_search_roots (fs : FS) (mock : Option NPath) : List NPath :=
  match mock with
  | some m => [m]
  | none =>
    let roots := [fs.cwdPath]
    (fs.cdpath.foldl
      (fun (st : List NPath × List NPath) p =>
        let p2 := canonOrSelf fs p
        if p2 ∈ st.1 then st else (st.1 ++ [p2], st.2 ++ [p]))
      ([], roots)).2

/-! ## The phased search (`search_cdpath`) -/

/-- The loop state of `search_cdpath`: the seen-set of canonical paths
(`dirs`) and the accumulated matches across roots (`all_matches`). -/
structure SState where
  dirs : List NPath
  all_matches : List NPath
deriving DecidableEq

/-- An ambiguity report (`report_ambiguity` prints the offending root
and all candidate paths and exits the process with failure). -/
structure Amb where
  root : NPath
  cands : List NPath
deriving DecidableEq

/-- The outcome of processing one root: an early successful return of
the whole search, continuation with an updated state, or a fatal
ambiguity. -/
inductive RootStep where
  | done (res : List NPath)
  | next (st : SState)
  | amb (a : Amb)
deriving DecidableEq

/-- The guarded push `if dirs.insert(canon) { matches.push(p) }`,
acting on a `(dirs, matches)` pair. -/
def insertMatch (fs : FS) (s : List NPath × List NPath) (p : NPath) :
    List NPath × List NPath :=
  let d := canonOrSelf fs p
  if d ∈ s.1 then s else (d :: s.1, s.2 ++ [p])

/-- The per-root match arbitration at the end of the root loop body:
no matches — continue; list mode or a wildcard query — accumulate and
continue; a single match — return it; several — fatal ambiguity. -/
def arbitrateRoot (opts : SearchOptions) (engine : SearchEngine) (root : NPath)
    (st : SState) (s : List NPath × List NPath) : RootStep :=
  if s.2 = [] then .next ⟨s.1, st.all_matches⟩
  else if opts.list ∨ engine.is_wildcard then .next ⟨s.1, st.all_matches ++ s.2⟩
  else if s.2.length = 1 then .done s.2
  else .amb ⟨root, s.2⟩

/-- Phases B, C and D of `search_cdpath` for one root, starting from the
`(dirs, matches)` pair left by phase A, followed by the per-root match
arbitration. -/
def continuePhases (fs : FS) (engine : SearchEngine) (opts : SearchOptions)
    (root : NPath) (i : Nat) (st : SState) (s0 : List NPath × List NPath) : RootStep :=
  -- Phase B: wildcard scan, first root only.
  let s1 := if engine.is_wildcard ∧ i = 0
            then (engine.scan_dir fs opts root).foldl (insertMatch fs) s0 else s0
  -- Phase C: target (bookmark) match on the root itself.
  let s2 := if (i > 0 ∨ opts.mock_path.isSome) ∧ opts.mode ≠ CdMode.Origin
            then (if engine.matches_path root then insertMatch fs s1 root else s1)
            else s1
  -- Phase D: origin scan of the root's contents.
  let s3 := if opts.mode ≠ CdMode.Target ∧ (i = 0 ∨ s2.2 = [])
            then (engine.scan_dir fs opts root).foldl (insertMatch fs) s2 else s2
  arbitrateRoot opts engine root st s3

/-- The body of the root loop of `search_cdpath` for the root at
enumeration index `i`: skip non-directories, then run phase A (the
direct-child check with its non-`exact` early return) and the remaining
phases. -/
def processRoot (fs : FS) (engine : SearchEngine) (name : String)
    (opts : SearchOptions) (root : NPath) (i : Nat) (st : SState) : RootStep :=
  if ¬ fs.isDir root then .next st
  else
    match (if ¬ engine.is_wildcard ∧ name ≠ "" then engine.check_direct fs root else none) with
    | some path =>
      if ¬ opts.exact then .done [path]
      else continuePhases fs engine opts root i st (insertMatch fs (st.dirs, []) path)
    | none => continuePhases fs engine opts root i st (st.dirs, [])

/-- The enumerated root loop of `search_cdpath`. -/
def searchLoop (fs : FS) (engine : SearchEngine) (name : String)
    (opts : SearchOptions) : List NPath → Nat → SState → Except Amb (List NPath)
  | [], _, st => .ok st.all_matches
  | root :: rest, i, st =>
    match processRoot fs engine name opts root i st with
    | .done res => .ok res
    | .amb a => .error a
    | .next st' => searchLoop fs engine name opts rest (i + 1) st'

/-- `search_cdpath`: build the engine, enumerate the roots, run the
phased loop.  A `.error` models the process exit taken by
`report_ambiguity`. -/
def search_cdpath (fs : FS) (name : String) (opts : SearchOptions) :
    Except Amb (List NPath) :=
  let engine := SearchEngine.new name opts.exact
  searchLoop fs engine name opts (get_search_roots fs opts.mock_path) 0 ⟨[], []⟩

/-! ## The segment walker (`resolve_path_segments`) -/

/-- The per-candidate body of the segment loop in
`resolve_path_segments`: ellipsis fragments go to `handle_ellipsis`;
the (unreachable, see `is_ellipsis`) `".."` arm keeps only candidates
with a parent; any other fragment triggers a phased sub-search, locked
to the candidate unless the candidate is the current directory. -/
def walkCandidates (fs : FS) (segment : String) (opts : SearchOptions) :
    List NPath → Except Amb (List NPath)
  | [] => .ok []
  | path :: rest => do
    let nav := trim_to_elipses segment
    let found ←
      if is_ellipsis nav then .ok (handle_ellipsis fs nav path)
      else if nav = ".." then
        .ok (match path.parent with
             | some parent => [parent]
             | none => [])
      else
        let is_base_cwd := fs.cwdPath == path
        if is_base_cwd then search_cdpath fs segment opts
        else search_cdpath fs segment { opts with mock_path := some path }
    let tailFound ← walkCandidates fs segment opts rest
    .ok (found ++ tailFound)

/-- The retain step at the top of `resolve_path_segments`: drop blank
segments and `"."` segments. -/
def retainSegs (segments : List String) : List String :=
  segments.filter (fun s => ¬ (rustTrim s = "" ∨ rustTrim s = "."))

/-- Fuelled embedding of the recursive `resolve_path_segments`.  The
Rust recursion consumes one retained segment per call, so fuel
`segments.length + 1` is always sufficient; `fuel = 0` is unreachable
under that choice. -/
def resolveSegsF (fs : FS) : Nat → List NPath → List String → SearchOptions →
    Except Amb (List NPath)
  | 0, cands, _, _ => .ok cands
  | fuel + 1, cands, segments, opts =>
    match retainSegs segments with
    | [] => .ok cands
    | segment :: restSegs =>
      if cands = [] then .ok cands
      else do
        let next ← walkCandidates fs segment opts cands
        match next with
        | [] => .ok []
        | n0 :: _ =>
          resolveSegsF fs fuel next restSegs { opts with mock_path := some n0 }

/-- `resolve_path_segments` with adequate fuel. -/
def resolve_path_segments (fs : FS) (cands : List NPath)
    (segments : List String) (opts : SearchOptions) : Except Amb (List NPath) :=
  resolveSegsF fs (segments.length + 1) cands segments opts

/-! ## Query classification (`evaluate_jump`) and the run-level
arbitration -/

/-- `get_drive_components`: split on separators and detect anchoring
(leading separator, or a two-character alphabetic drive specifier in
the first component) and bare anchors. -/
def get_drive_components (path : String) : Bool × Bool × List String :=
  let parts := splitSlash path
  if parts = [] then (false, false, [])
  else
    let anchored0 := startsWithSepChar path
    let anchored :=
      anchored0 ||
        (decide ((parts.getD 0 "").length = 2) &&
         (parts.getD 0 "").data.getLast?.getD ' ' == DRIVE_SEPARATOR &&
         ((parts.getD 0 "").data.head?.getD ' ').isAlpha)
    let bare := anchored && (decide (parts.length = 1) || parts.getD 1 "x" == "")
    (bare, anchored, parts)

/-- `split_query`: drop empty components, then split head from tails
according to the anchoring kind. -/
def split_query (query : List String) (starts_with_sep : Bool)
    (is_anchored : Bool) : String × List String :=
  let parts := query.filter (fun s => ¬ s.isEmpty)
  match parts with
  | [] => ("", [])
  | p0 :: ptail =>
    if starts_with_sep then ("", p0 :: ptail)
    else if is_anchored then (p0, ptail)
    else ("", p0 :: ptail)

/-- `get_drive_root`: the first path component (the root for absolute
paths). -/
def get_drive_root (p : NPath) : Option NPath :=
  if p.isAbs then some ⟨true, []⟩
  else
    match p.comps with
    | [] => none
    | c :: _ => some ⟨false, [c]⟩

/-- `evaluate_jump`: trim the query, special-case blank queries, detect
anchoring, split into segments, pick the start roots, and hand over to
the segment walker. -/
def evaluate_jump (fs : FS) (raw_query : String) (opts : SearchOptions) :
    Except Amb (List NPath) :=
  let query_check := rustTrim raw_query
  if query_check = "" then .ok []
  else
    let query := query_check
    let base := fs.cwdPath
    let starts_with_sep := startsWithSepChar query
    let bac := get_drive_components query
    if bac.1 then .ok [parsePath query]
    else
      let ht := split_query bac.2.2 starts_with_sep bac.2.1
      if bac.2.1 || starts_with_sep then
        let root :=
          if starts_with_sep then
            let r := (get_drive_root base).getD (parsePath "/")
            parsePath (String.mk ((trimEndSeps (pathToString r)).data ++ ['/']))
          else parsePath (String.mk (ht.1.data ++ ['/']))
        resolve_path_segments fs [root] ht.2 opts
      else
        let s := (if ¬ ht.1.isEmpty then [ht.1] else []) ++ ht.2
        resolve_path_segments fs [base] s opts

/-- The outcome of the run-level arbitration after `evaluate_jump`. -/
inductive RunOutcome where
  | ambiguous (q : String) (results : List NPath)
  | noMatch (q : String)
  | ok (results : List NPath)
deriving DecidableEq

/-- The tail of `run` after the search pipeline: more than one result
without the list flag is a fatal ambiguity reporting every candidate;
no results is a resolution failure; otherwise all results are emitted. -/
def finishRun (q : String) (results : List NPath) (list : Bool) : RunOutcome :=
  if 1 < results.length ∧ ¬ list then .ambiguous q results
  else if results = [] then .noMatch q
  else .ok results

/-- Decidable equality for `Except`, so concrete pipeline outcomes can
be checked by `decide`. -/
instance {e a : Type} [DecidableEq e] [DecidableEq a] : DecidableEq (Except e a) := fun x y =>
  match x, y with
  | .ok u, .ok v =>
    if h : u = v then isTrue (by rw [h]) else isFalse (fun he => h (Except.ok.inj he))
  | .error u, .error v =>
    if h : u = v then isTrue (by rw [h]) else isFalse (fun he => h (Except.error.inj he))
  | .ok _, .error _ => isFalse (fun he => Except.noConfusion he)
  | .error _, .ok _ => isFalse (fun he => Except.noConfusion he)

/-! ## Shared example environment for concrete witnesses -/

/-- A small concrete filesystem: current directory `/w` holding `proj1`
and `proj2`, and a `CDPATH` entry `/o` holding `proj`. -/
def fsEx : FS :=
  { dirs := [[], ["w"], ["w", "proj1"], ["w", "proj2"], ["o"], ["o", "proj"]]
    unreadable := []
    cwd := ["w"]
    cdpath := [⟨true, ["o"]⟩] }

/-- Default options: origin mode, case-insensitive, no list, plain
matching, no scope override. -/
def optsEx : SearchOptions :=
  { mode := .Origin, exact := false, list := false, dir_match := .AsIs, mock_path := none }

/-! ## Claim-level auxiliary definitions -/

/-- Specification-side description of the `CDPATH` deduplication: keep
each entry, dropping every later entry whose canonical form equals the
canonical form of an entry already kept ("later duplicates, compared by
canonical form, are dropped"). -/
def keepFirstByKey (key : NPath → NPath) : List NPath → List NPath
  | [] => []
  | p :: rest => p :: keepFirstByKey key (rest.filter (fun q => key q ≠ key p))
termination_by l => l.length
decreasing_by
  simp only [List.length_cons]
  exact Nat.lt_succ_of_le (List.length_filter_le _ _)

/-- A concrete filesystem with an unreadable directory `/bad` beside a
readable `/ok`; the current directory is the root. -/
def fsUnread : FS :=
  { dirs := [[], ["bad"], ["bad", "z"], ["ok"], ["ok", "x"]]
    unreadable := [["bad"]]
    cwd := []
    cdpath := [] }

/-- A filesystem whose single root `/w` (the current directory) holds
two directories matching the wildcard `proj*`. -/
def fsTwo : FS :=
  { dirs := [[], ["w"], ["w", "proj1"], ["w", "proj2"]]
    unreadable := []
    cwd := ["w"]
    cdpath := [] }

/-- The invariant threading through one phased-search call: the
canonical forms of everything accumulated so far (`all` across roots
plus the current root's local matches) are pairwise distinct and all
registered in the seen-set. -/
def InvPair (fs : FS) (all : List NPath) (s : List NPath × List NPath) : Prop :=
  ((all ++ s.2).map (canonOrSelf fs)).Nodup ∧
    ∀ p ∈ all ++ s.2, canonOrSelf fs p ∈ s.1

/-- The cross-root form of the invariant. -/
def InvState (fs : FS) (st : SState) : Prop :=
  (st.all_matches.map (canonOrSelf fs)).Nodup ∧
    ∀ p ∈ st.all_matches, canonOrSelf fs p ∈ st.dirs

/-- Specification-side glob token: a literal character, `?`, or `*`. -/
inductive GlobTok where
  | lit (c : Char)
  | one
  | many
deriving DecidableEq

/-- Tokenise a fragment as the spec reads it: `*` any sequence, `?`
exactly one character, every other character (dots included) literal. -/
def globToks (l : List Char) : List GlobTok :=
  l.map (fun c => if c = '*' then GlobTok.many else if c = '?' then GlobTok.one
    else GlobTok.lit c)

/-- Case folding of a glob token ("matching is case-sensitive exactly
when `exact` is true"). -/
def GlobTok.fold (exact : Bool) : GlobTok → GlobTok
  | .lit c => .lit (if exact then c else c.toLower)
  | t => t

/-- Fuelled whole-name glob matcher, the spec's reading of wildcard
acceptance: the whole name, not a substring, must match. -/
def globMatchF : Nat → List GlobTok → List Char → Bool
  | 0, _, _ => false
  | _ + 1, [], [] => true
  | _ + 1, [], _ :: _ => false
  | _ + 1, .lit _ :: _, [] => false
  | f + 1, .lit c :: ts, x :: xs => (x == c) && globMatchF f ts xs
  | _ + 1, .one :: _, [] => false
  | f + 1, .one :: ts, _ :: xs => globMatchF f ts xs
  | f + 1, .many :: ts, cs =>
    globMatchF f ts cs ||
      (match cs with
       | [] => false
       | _ :: cs' => globMatchF f (.many :: ts) cs')

/-- Whole-name glob acceptance with the case folding demanded by
`exact`, at sufficient fuel. -/
def glob_accepts (frag name : String) (exact : Bool) : Bool :=
  let ts := (globToks frag.data).map (GlobTok.fold exact)
  let n := if exact then name.data else name.data.map Char.toLower
  globMatchF (ts.length + n.length + 1) ts n

/-- The regex pieces the glob translation produces for one fragment
character. -/
def fragPieces (l : List Char) : List RPiece :=
  l.map (fun c => if c = '*' then RPiece.star RAtom.any
    else if c = '?' then RPiece.once RAtom.any else RPiece.once (RAtom.lit c))

/-- The characters the glob translation emits for one fragment
character. -/
def emitChar (c : Char) : List Char :=
  if c = '.' then ['\\', '.']
  else if c = '?' then ['.']
  else if c = '*' then ['.', '*']
  else [c]

/-- A fragment character free of the regex metacharacters that the glob
translation passes through unescaped. -/
def SafeChar (c : Char) : Prop :=
  c ∉ ['\\', '(', ')', '[', ']', '{', '}', '|', '^', '$', '+']

instance (c : Char) : Decidable (SafeChar c) :=
  inferInstanceAs (Decidable (c ∉ ['\\', '(', ')', '[', ']', '{', '}', '|', '^', '$', '+']))

/-- The regex piece corresponding to one glob token. -/
def pieceOfTok : GlobTok → RPiece
  | .lit c => .once (.lit c)
  | .one => .once .any
  | .many => .star .any

/-! ## Helper lemmas -/

/-- The pop loop removes up to `n` trailing components and then sticks. -/
theorem popLoop_eq_take (n : Nat) (b : Bool) (cs : List String) :
    popLoop n ⟨b, cs⟩ = ⟨b, cs.take (cs.length - n)⟩ := by
  induction n generalizing cs with
  | zero => simp [popLoop]
  | succ n ih =>
    cases cs with
    | nil => simp [popLoop, NPath.pop, NPath.parent]
    | cons c cs' =>
      have hne : c :: cs' ≠ ([] : List String) := by simp
      simp only [popLoop, NPath.pop, NPath.parent]
      rw [ih (c :: cs').dropLast]
      have hlen : (c :: cs').dropLast.length = (c :: cs').length - 1 :=
        List.length_dropLast _
      rw [hlen, List.dropLast_eq_take, List.take_take]
      have hmin : min ((c :: cs').length - 1 - n) ((c :: cs').length - 1)
          = (c :: cs').length - (n + 1) := by omega
      rw [hmin]

/-- Absolutising a base always yields an absolute path. -/
theorem absolutizeBase_isAbs (fs : FS) (base : NPath) :
    (absolutizeBase fs base).isAbs = true := by
  unfold absolutizeBase
  by_cases h : base.isAbs = true
  · simp [h]
  · simp only [h, if_neg]
    cases hc : fs.canonicalize base with
    | none => simp [NPath.join, Option.getD, FS.cwdPath, h]
    | some q =>
      unfold FS.canonicalize at hc
      cases hl : fs.lookup (fs.resolve base) with
      | none => rw [hl] at hc; simp at hc
      | some d => rw [hl] at hc; simp at hc; simp [← hc]

/-- `handle_ellipsis` on `".."` applied to an absolute path: the parent,
or the path itself at the root. -/
theorem handle_ellipsis_dotdot_abs (fs : FS) (p : NPath) (hp : p.isAbs = true) :
    handle_ellipsis fs ".." p = [p.parent.getD p] := by
  obtain ⟨b, cs⟩ := p
  simp only at hp
  subst hp
  show [popLoop ((".." : String).length - 1) ⟨true, cs⟩] =
    [(NPath.parent ⟨true, cs⟩).getD ⟨true, cs⟩]
  have hn : (".." : String).length - 1 = 1 := by decide
  rw [hn, popLoop_eq_take]
  cases cs with
  | nil => rfl
  | cons c cs' =>
    simp only [NPath.parent, Option.getD_some]
    rw [List.dropLast_eq_take]

/-! ## C1 — ellipsis pops N−1 parents and clamps at the root -/

/-- C1: an ellipsis fragment of length `N ≥ 2` (its dots, interior
spaces discarded) applied by `handle_ellipsis` to a base path pops
exactly `N − 1` components off the absolutised base: when the base's
depth `D` satisfies `N − 1 ≤ D` the result is exactly the ancestor
`N − 1` levels up, and when `D < N − 1` it is the filesystem root of
the base; in every case the single returned path is absolute (never
empty or invalid). -/
theorem handle_ellipsis_pops_and_clamps (fs : FS) (seg : String) (base : NPath)
    (h : is_ellipsis seg = true) :
    2 ≤ (trim_to_elipses seg).length ∧
    ((trim_to_elipses seg).length - 1 ≤ (absolutizeBase fs base).comps.length →
      handle_ellipsis fs (trim_to_elipses seg) base =
        [⟨true, (absolutizeBase fs base).comps.take
            ((absolutizeBase fs base).comps.length - ((trim_to_elipses seg).length - 1))⟩]) ∧
    ((absolutizeBase fs base).comps.length < (trim_to_elipses seg).length - 1 →
      handle_ellipsis fs (trim_to_elipses seg) base = [⟨true, []⟩]) ∧
    (∀ p ∈ handle_ellipsis fs (trim_to_elipses seg) base, p.isAbs = true) := by
  have hlen : 2 ≤ (trim_to_elipses seg).length := by
    unfold is_ellipsis at h
    simp only [Bool.and_eq_true, decide_eq_true_eq] at h
    omega
  have ha : (absolutizeBase fs base).isAbs = true := absolutizeBase_isAbs fs base
  have hkey : handle_ellipsis fs (trim_to_elipses seg) base =
      [popLoop ((trim_to_elipses seg).length - 1) (absolutizeBase fs base)] := rfl
  have hpop : popLoop ((trim_to_elipses seg).length - 1) (absolutizeBase fs base) =
      ⟨(absolutizeBase fs base).isAbs,
        (absolutizeBase fs base).comps.take
          ((absolutizeBase fs base).comps.length - ((trim_to_elipses seg).length - 1))⟩ := by
    have : absolutizeBase fs base =
        ⟨(absolutizeBase fs base).isAbs, (absolutizeBase fs base).comps⟩ := rfl
    rw [this, popLoop_eq_take]
  refine ⟨hlen, ?_, ?_, ?_⟩
  · intro _
    rw [hkey, hpop, ha]
  · intro hlt
    rw [hkey, hpop, ha]
    have hz : (absolutizeBase fs base).comps.length - ((trim_to_elipses seg).length - 1) = 0 := by
      omega
    rw [hz, List.take_zero]
  · intro p hp
    rw [hkey] at hp
    simp only [List.mem_singleton] at hp
    rw [hp, hpop]
    exact ha

/-- Witness for C1 at concrete inputs: `"..."` pops two levels off
`/a/b/c`, and five dots clamp `/a/b/c` at the root. -/
theorem handle_ellipsis_pops_and_clamps_witness :
    handle_ellipsis fsEx (trim_to_elipses "...") ⟨true, ["a", "b", "c"]⟩ = [⟨true, ["a"]⟩] ∧
    handle_ellipsis fsEx (trim_to_elipses ".....") ⟨true, ["a", "b", "c"]⟩ = [⟨true, []⟩] := by
  constructor
  · have h := (handle_ellipsis_pops_and_clamps fsEx "..." ⟨true, ["a", "b", "c"]⟩
      (by decide)).2.1 (by decide)
    rw [h]
    decide
  · exact (handle_ellipsis_pops_and_clamps fsEx "....." ⟨true, ["a", "b", "c"]⟩
      (by decide)).2.2.1 (by decide)

/-! ## C7 — `..` in the segment walker: parent or self, never dropped -/

/-- C7: in the segment walker, a `".."` fragment maps every (absolute)
candidate to its parent, or to itself when it has no parent (the
filesystem root); no candidate is dropped.  (In the code this happens
through the ellipsis branch: `is_ellipsis("..")` holds, so the
dedicated `".."` arm of `resolve_path_segments` is unreachable and the
clamping `handle_ellipsis` pop is what runs.) -/
theorem walker_dotdot_parent_or_self (fs : FS) (opts : SearchOptions) (ps : List NPath)
    (habs : ∀ p ∈ ps, p.isAbs = true) :
    walkCandidates fs ".." opts ps = .ok (ps.map (fun p => p.parent.getD p)) := by
  induction ps with
  | nil => rfl
  | cons p rest ih =>
    have hp : p.isAbs = true := habs p (by simp)
    have hrest := ih (fun q hq => habs q (by simp [hq]))
    have hnav : trim_to_elipses ".." = ".." := by decide
    have hell : is_ellipsis ".." = true := by decide
    simp only [walkCandidates, hnav, hell, if_true]
    rw [handle_ellipsis_dotdot_abs fs p hp, hrest]
    rfl

/-- Witness for C7: from the candidates `/w/proj1` and `/` (the root),
`".."` yields `/w` and `/` — the root candidate survives unchanged. -/
theorem walker_dotdot_parent_or_self_witness :
    walkCandidates fsEx ".." optsEx [⟨true, ["w", "proj1"]⟩, ⟨true, []⟩] =
      .ok [⟨true, ["w"]⟩, ⟨true, []⟩] := by
  have h := walker_dotdot_parent_or_self fsEx optsEx [⟨true, ["w", "proj1"]⟩, ⟨true, []⟩]
    (by decide)
  rw [h]
  decide

/-! ## C10 — blank queries resolve to the empty candidate list -/

/-- C10: `evaluate_jump` on a query that is empty or all whitespace
returns the empty candidate list, for every filesystem and option set
(so no filesystem or search-root consultation can influence it). -/
theorem evaluate_jump_blank_query (fs : FS) (q : String) (opts : SearchOptions)
    (h : rustTrim q = "") : evaluate_jump fs q opts = .ok [] := by
  unfold evaluate_jump
  simp [h]

/-- Witness for C10 on a concrete whitespace query. -/
theorem evaluate_jump_blank_query_witness :
    rustTrim " \t " = "" ∧ evaluate_jump fsEx " \t " optsEx = .ok [] :=
  ⟨by decide, evaluate_jump_blank_query fsEx " \t " optsEx (by decide)⟩

/-! ## C6 — root enumeration -/

/-- The seen-set fold of `get_search_roots` implements the
keep-first-occurrence filter. -/
theorem foldl_seen_eq_keepFirst (fs : FS) (l : List NPath) (seen acc : List NPath) :
    (l.foldl
      (fun (st : List NPath × List NPath) p =>
        let p2 := canonOrSelf fs p
        if p2 ∈ st.1 then st else (st.1 ++ [p2], st.2 ++ [p]))
      (seen, acc)).2
      = acc ++ keepFirstByKey (canonOrSelf fs)
          (l.filter (fun p => canonOrSelf fs p ∉ seen)) := by
  induction l generalizing seen acc with
  | nil => simp [keepFirstByKey]
  | cons p rest ih =>
    simp only [List.foldl_cons, List.filter_cons]
    by_cases hmem : canonOrSelf fs p ∈ seen
    · simp only [hmem, if_true, not_true_eq_false, decide_False, Bool.false_eq_true,
        if_false]
      rw [ih]
    · simp only [hmem, if_false, not_false_eq_true, decide_True, if_true]
      rw [ih, keepFirstByKey]
      have hff : (rest.filter (fun q => canonOrSelf fs q ∉ (seen ++ [canonOrSelf fs p])))
          = ((rest.filter (fun q => canonOrSelf fs q ∉ seen)).filter
              (fun q => canonOrSelf fs q ≠ canonOrSelf fs p)) := by
        rw [List.filter_filter]
        apply List.filter_congr
        intro q _
        by_cases h1 : canonOrSelf fs q ∈ seen
        · simp [h1]
        · by_cases h2 : canonOrSelf fs q = canonOrSelf fs p
          · simp [h1, h2]
          · simp [h1, h2]
      rw [← hff]
      simp

/-- C6: with a scope override the enumerated roots are exactly the
one-element list holding the override, whatever the current directory
and search path are; without one, position 0 is always the current
working directory and the remaining positions are the `CDPATH` entries
in order with later canonical-form duplicates dropped (a `CDPATH`
entry duplicating the current directory is kept). -/
theorem get_search_roots_exclusive_and_ordered :
    (∀ (fs : FS) (m : NPath), get_search_roots fs (some m) = [m]) ∧
    (∀ fs : FS, get_search_roots fs none =
      fs.cwdPath :: keepFirstByKey (canonOrSelf fs) fs.cdpath) := by
  constructor
  · intro fs m
    rfl
  · intro fs
    show (fs.cdpath.foldl
      (fun (st : List NPath × List NPath) p =>
        let p2 := canonOrSelf fs p
        if p2 ∈ st.1 then st else (st.1 ++ [p2], st.2 ++ [p]))
      ([], [fs.cwdPath])).2 = fs.cwdPath :: keepFirstByKey (canonOrSelf fs) fs.cdpath
    rw [foldl_seen_eq_keepFirst]
    simp

/-! ## C3 — the direct-child fast path of the phased search -/

/-- `check_direct` succeeds without a casing check when `exact` is off. -/
theorem check_direct_of_not_exact (fs : FS) (e : SearchEngine) (root : NPath)
    (h1 : fs.isDir (root.joinStr e.query) = true) (h2 : e.exact = false) :
    e.check_direct fs root = some (root.joinStr e.query) := by
  unfold SearchEngine.check_direct
  simp [h1, h2]

/-- C3: for a non-wildcard, non-empty fragment and a root whose direct
child `root/fragment` exists as a directory, the phased search with
`exact` off returns exactly that child at once — no later phase of the
root and no later root is consulted; with `exact` on, `check_direct`
accepts the child exactly when the fragment equals the child's on-disk
casing. -/
theorem phased_search_direct_child_fast_path :
    (∀ (fs : FS) (name : String) (opts : SearchOptions) (root : NPath) (i : Nat)
        (st : SState) (rest : List NPath),
      (SearchEngine.new name opts.exact).is_wildcard = false →
      name ≠ "" →
      fs.isDir root = true →
      fs.isDir (root.joinStr name) = true →
      opts.exact = false →
      searchLoop fs (SearchEngine.new name opts.exact) name opts (root :: rest) i st
        = .ok [root.joinStr name]) ∧
    (∀ (fs : FS) (name : String) (root : NPath),
      (SearchEngine.new name true).check_direct fs root = some (root.joinStr name) ↔
        (fs.isDir (root.joinStr name) = true ∧
          get_disk_casing fs (root.joinStr name) = name)) := by
  constructor
  · intro fs name opts root i st rest hw hne hroot hchild hex
    have hq : (SearchEngine.new name opts.exact).query = name := rfl
    have hcd : (SearchEngine.new name opts.exact).check_direct fs root
        = some (root.joinStr name) := by
      have := check_direct_of_not_exact fs (SearchEngine.new name opts.exact) root
        (by rw [hq]; exact hchild) (by show opts.exact = false; exact hex)
      rw [hq] at this
      exact this
    have hstep : processRoot fs (SearchEngine.new name opts.exact) name opts root i st
        = .done [root.joinStr name] := by
      unfold processRoot
      rw [hex] at hw hcd
      simp [hroot, hw, hne, hcd, hex]
    simp only [searchLoop, hstep]
  · intro fs name root
    have hq : (SearchEngine.new name true).query = name := rfl
    have hx : (SearchEngine.new name true).exact = true := rfl
    constructor
    · intro h
      unfold SearchEngine.check_direct at h
      rw [hq, hx] at h
      by_cases h1 : fs.isDir (root.joinStr name) = true
      · refine ⟨h1, ?_⟩
        rw [if_neg (by simp [h1])] at h
        by_cases h2 : get_disk_casing fs (root.joinStr name) = name
        · exact h2
        · rw [if_pos (by simp [h2])] at h
          exact absurd h (by simp)
      · rw [if_pos (by simpa using h1)] at h
        exact absurd h (by simp)
    · intro hpair
      unfold SearchEngine.check_direct
      rw [hq, hx]
      rw [if_neg (by simp [hpair.1])]
      rw [if_neg (by simp [hpair.2])]

/-- Witness for C3: in the example filesystem the fragment `"proj"` has
no direct child under `/w` but does under the second root `/o`; the
fast path at `/o` returns `/o/proj` alone, immediately. -/
theorem phased_search_direct_child_fast_path_witness :
    searchLoop fsEx (SearchEngine.new "proj" optsEx.exact) "proj" optsEx
      [⟨true, ["o"]⟩, ⟨true, ["w"]⟩] 1 ⟨[], []⟩ = .ok [⟨true, ["o", "proj"]⟩] := by
  have h := phased_search_direct_child_fast_path.1 fsEx "proj" optsEx ⟨true, ["o"]⟩ 1
    ⟨[], []⟩ [⟨true, ["w"]⟩] (by decide) (by decide) (by decide) (by decide) (by decide)
  rw [h]
  decide

/-! ## C8 — unreadable directories contribute nothing and abort nothing -/

/-- A root whose contents cannot be read scans to the empty list. -/
theorem scan_dir_unreadable (fs : FS) (e : SearchEngine) (opts : SearchOptions)
    (root : NPath) (h : fs.readDir (fs.resolve root) = none) :
    e.scan_dir fs opts root = [] := by
  unfold SearchEngine.scan_dir
  rw [h]

/-- C8: a root whose contents cannot be read contributes nothing from
its scan phases, the root loop simply continues with the subsequent
roots in the same state, and such a root can never produce the fatal
ambiguity outcome (in origin mode, the only phases that run against it
are read-free); so per-entry read errors never surface as a pipeline
failure. -/
theorem unreadable_root_skipped :
    (∀ (fs : FS) (e : SearchEngine) (opts : SearchOptions) (root : NPath),
      fs.readDir (fs.resolve root) = none → e.scan_dir fs opts root = []) ∧
    (∀ (fs : FS) (engine : SearchEngine) (name : String) (opts : SearchOptions)
        (root : NPath) (i : Nat) (st : SState) (rest : List NPath),
      fs.readDir (fs.resolve root) = none →
      engine.check_direct fs root = none →
      opts.mode = CdMode.Origin →
      searchLoop fs engine name opts (root :: rest) i st
        = searchLoop fs engine name opts rest (i + 1) st) ∧
    (∀ (fs : FS) (engine : SearchEngine) (name : String) (opts : SearchOptions)
        (root : NPath) (i : Nat) (st : SState) (a : Amb),
      fs.readDir (fs.resolve root) = none →
      opts.mode = CdMode.Origin →
      processRoot fs engine name opts root i st ≠ RootStep.amb a) := by
  refine ⟨scan_dir_unreadable, ?_, ?_⟩
  · intro fs engine name opts root i st rest hread hcd hmode
    have hscan : engine.scan_dir fs opts root = [] := scan_dir_unreadable _ _ _ _ hread
    have hnone : (if ¬ engine.is_wildcard ∧ name ≠ "" then engine.check_direct fs root
        else none) = none := by
      by_cases hc : ¬ engine.is_wildcard ∧ name ≠ ""
      · rw [if_pos hc, hcd]
      · rw [if_neg hc]
    have hstep : processRoot fs engine name opts root i st = RootStep.next st := by
      unfold processRoot
      by_cases hdir : fs.isDir root = true
      · rw [if_neg (by simp [hdir]), hnone]
        unfold continuePhases arbitrateRoot
        simp [hscan, hmode]
      · rw [if_pos (by simpa using hdir)]
    simp only [searchLoop, hstep]
  · intro fs engine name opts root i st a hread hmode
    have hscan : engine.scan_dir fs opts root = [] := scan_dir_unreadable _ _ _ _ hread
    unfold processRoot
    by_cases hdir : fs.isDir root = true
    · rw [if_neg (by simp [hdir])]
      cases hc : (if ¬ engine.is_wildcard ∧ name ≠ "" then engine.check_direct fs root
          else none) with
      | none =>
        unfold continuePhases arbitrateRoot
        simp [hscan, hmode]
      | some path =>
        by_cases hex : opts.exact = true
        · have hframe : ¬ opts.exact = false := by simp [hex]
          simp only [hex, not_true_eq_false, if_false]
          unfold continuePhases arbitrateRoot
          unfold insertMatch
          by_cases hkey : canonOrSelf fs path ∈ st.dirs
          · simp [hscan, hmode, hkey]
          · simp only [hscan, hmode, hkey]
            simp [hscan, hmode, hkey]
            split <;> simp
        · have : opts.exact = false := by simpa using hex
          simp [this]
    · rw [if_pos (by simpa using hdir)]
      simp

/-- Witness for C8: searching `"x"` over the roots `/bad` (unreadable,
no direct child `x`) then `/ok` skips `/bad` and finds `/ok/x`. -/
theorem unreadable_root_skipped_witness :
    searchLoop fsUnread (SearchEngine.new "x" false) "x"
      { optsEx with mock_path := some ⟨true, ["bad"]⟩ }
      [⟨true, ["bad"]⟩, ⟨true, ["ok"]⟩] 0 ⟨[], []⟩ = .ok [⟨true, ["ok", "x"]⟩] := by
  have h := unreadable_root_skipped.2.1 fsUnread (SearchEngine.new "x" false) "x"
    { optsEx with mock_path := some ⟨true, ["bad"]⟩ }
    ⟨true, ["bad"]⟩ 0 ⟨[], []⟩ [⟨true, ["ok"]⟩] (by decide) (by decide) (by decide)
  rw [h]
  decide

/-! ## C2 — ambiguity is reported, never auto-resolved -/

/-- C2: whenever resolution yields more than one final candidate and the
list flag is off, the run-level arbitration reports the full candidate
list as a fatal ambiguity instead of picking one; with the list flag on,
every candidate is returned.  Concretely, the wildcard `proj*` matching
the two directories `proj1`, `proj2` of one root resolves to both, which
without `list` becomes an ambiguity naming both and with `list` returns
both. -/
theorem run_reports_all_candidates_on_ambiguity :
    (∀ (q : String) (res : List NPath) (list : Bool),
      1 < res.length → list = false → finishRun q res list = .ambiguous q res) ∧
    (∀ (q : String) (res : List NPath), res ≠ [] → finishRun q res true = .ok res) ∧
    (evaluate_jump fsTwo "proj*" optsEx
        = .ok [⟨true, ["w", "proj1"]⟩, ⟨true, ["w", "proj2"]⟩] ∧
      evaluate_jump fsTwo "proj*" { optsEx with list := true }
        = .ok [⟨true, ["w", "proj1"]⟩, ⟨true, ["w", "proj2"]⟩] ∧
      finishRun "proj*" [⟨true, ["w", "proj1"]⟩, ⟨true, ["w", "proj2"]⟩] false
        = .ambiguous "proj*" [⟨true, ["w", "proj1"]⟩, ⟨true, ["w", "proj2"]⟩] ∧
      finishRun "proj*" [⟨true, ["w", "proj1"]⟩, ⟨true, ["w", "proj2"]⟩] true
        = .ok [⟨true, ["w", "proj1"]⟩, ⟨true, ["w", "proj2"]⟩]) := by
  refine ⟨?_, ?_, by decide, by decide, by decide, by decide⟩
  · intro q res list hlen hlist
    unfold finishRun
    rw [if_pos ⟨hlen, by simp [hlist]⟩]
  · intro q res hres
    unfold finishRun
    rw [if_neg (by simp), if_neg hres]

/-- Witness for C2's quantified parts at the concrete ambiguous pair. -/
theorem run_reports_all_candidates_on_ambiguity_witness :
    finishRun "q" [⟨true, ["a"]⟩, ⟨true, ["b"]⟩] false
      = .ambiguous "q" [⟨true, ["a"]⟩, ⟨true, ["b"]⟩] ∧
    finishRun "q" [⟨true, ["a"]⟩, ⟨true, ["b"]⟩] true
      = .ok [⟨true, ["a"]⟩, ⟨true, ["b"]⟩] :=
  ⟨run_reports_all_candidates_on_ambiguity.1 "q" [⟨true, ["a"]⟩, ⟨true, ["b"]⟩] false
      (by decide) rfl,
    run_reports_all_candidates_on_ambiguity.2.1 "q" [⟨true, ["a"]⟩, ⟨true, ["b"]⟩]
      (by decide)⟩

/-! ## C4 — scope locking in the segment walker -/

/-- Counterexample to C4 as stated: when the candidate is the current
working directory (`/w` in `fsEx`), the walker hands the sub-search the
caller's unchanged configuration instead of locking the scope to the
candidate.  With the default (override-free) configuration the
sub-search then consults the search-path root `/o` and finds
`/o/proj` — whereas a search actually locked to the candidate `/w`
finds nothing. -/
theorem walker_cwd_candidate_not_locked :
    fsEx.cwdPath = ⟨true, ["w"]⟩ ∧
    walkCandidates fsEx "proj" optsEx [⟨true, ["w"]⟩] = .ok [⟨true, ["o", "proj"]⟩] ∧
    search_cdpath fsEx "proj" { optsEx with mock_path := some ⟨true, ["w"]⟩ } = .ok [] := by
  refine ⟨rfl, by decide, by decide⟩

/-- C4 (amended): for a fragment that is not blank, not `.`, not `..`
and not an ellipsis, the walker runs the phased search with the scope
override set to the candidate for every candidate that differs from the
current working directory — and the override makes the search consult
exactly that one root; a candidate equal to the current working
directory is searched with the caller's configuration unchanged. -/
theorem walker_locks_non_cwd_candidates :
    (∀ (fs : FS) (seg : String) (opts : SearchOptions) (p : NPath) (l : List NPath),
      is_ellipsis (trim_to_elipses seg) = false →
      trim_to_elipses seg ≠ ".." →
      p ≠ fs.cwdPath →
      search_cdpath fs seg { opts with mock_path := some p } = .ok l →
      walkCandidates fs seg opts [p] = .ok l) ∧
    (∀ (fs : FS) (p : NPath) (opts : SearchOptions),
      get_search_roots fs ({ opts with mock_path := some p }).mock_path = [p]) ∧
    (∀ (fs : FS) (seg : String) (opts : SearchOptions) (p : NPath) (l : List NPath),
      is_ellipsis (trim_to_elipses seg) = false →
      trim_to_elipses seg ≠ ".." →
      p = fs.cwdPath →
      search_cdpath fs seg opts = .ok l →
      walkCandidates fs seg opts [p] = .ok l) := by
  refine ⟨?_, ?_, ?_⟩
  · intro fs seg opts p l hnel hndd hne hs
    simp only [walkCandidates]
    rw [if_neg (by simp [hnel])]
    rw [if_neg hndd]
    have hbeq : (fs.cwdPath == p) = false := by
      simp only [beq_eq_false_iff_ne, ne_eq]
      exact fun h => hne h.symm
    rw [hbeq]
    simp only [Bool.false_eq_true, if_false, hs]
    show Except.ok (l ++ []) = Except.ok l
    rw [List.append_nil]
  · intro fs p opts
    rfl
  · intro fs seg opts p l hnel hndd heq hs
    simp only [walkCandidates]
    rw [if_neg (by simp [hnel])]
    rw [if_neg hndd]
    have hbeq : (fs.cwdPath == p) = true := by
      simp [heq]
    rw [hbeq]
    simp only [if_true, hs]
    show Except.ok (l ++ []) = Except.ok l
    rw [List.append_nil]

/-- Witness for the amended C4: the non-cwd candidate `/o` is searched
with the scope locked to `/o`, finding `/o/proj` only. -/
theorem walker_locks_non_cwd_candidates_witness :
    walkCandidates fsEx "proj" optsEx [⟨true, ["o"]⟩] = .ok [⟨true, ["o", "proj"]⟩] :=
  walker_locks_non_cwd_candidates.1 fsEx "proj" optsEx ⟨true, ["o"]⟩
    [⟨true, ["o", "proj"]⟩] (by decide) (by decide) (by decide) (by decide)

/-! ## C9 — results of one phased-search call are canonically distinct -/

/-- `insertMatch` preserves the invariant. -/
theorem insertMatch_inv (fs : FS) (all : List NPath) (s : List NPath × List NPath)
    (p : NPath) (h : InvPair fs all s) : InvPair fs all (insertMatch fs s p) := by
  unfold insertMatch
  by_cases hmem : canonOrSelf fs p ∈ s.1
  · rw [if_pos hmem]
    exact h
  · rw [if_neg hmem]
    obtain ⟨hnd, hsub⟩ := h
    constructor
    · show ((all ++ (s.2 ++ [p])).map (canonOrSelf fs)).Nodup
      rw [← List.append_assoc, List.map_append]
      rw [List.nodup_append]
      refine ⟨hnd, List.nodup_singleton _, ?_⟩
      intro x hx
      simp only [List.map_map, List.mem_map] at hx
      simp only [List.map_cons, List.map_nil, List.mem_singleton]
      obtain ⟨q, hq, hkey⟩ := hx
      intro hxp
      apply hmem
      rw [← hxp, ← hkey]
      exact hsub q hq
    · intro q hq
      show canonOrSelf fs q ∈ canonOrSelf fs p :: s.1
      rw [← List.append_assoc, List.mem_append] at hq
      cases hq with
      | inl hq0 =>
        exact List.mem_cons_of_mem _ (hsub q hq0)
      | inr hq1 =>
        simp only [List.mem_singleton] at hq1
        rw [hq1]
        exact List.mem_cons_self _ _

/-- Folding `insertMatch` over any list of found paths preserves the
invariant. -/
theorem foldl_insertMatch_inv (fs : FS) (all : List NPath) (ps : List NPath) :
    ∀ (s : List NPath × List NPath), InvPair fs all s →
      InvPair fs all (ps.foldl (insertMatch fs) s) := by
  induction ps with
  | nil => intro s h; exact h
  | cons p rest ih =>
    intro s h
    exact ih (insertMatch fs s p) (insertMatch_inv fs all s p h)

/-- The per-root arbitration preserves the invariant on continuation
states and only returns canonically distinct lists on early success. -/
theorem arbitrateRoot_inv (fs : FS) (opts : SearchOptions) (e : SearchEngine)
    (root : NPath) (st : SState) (s : List NPath × List NPath)
    (h : InvPair fs st.all_matches s) :
    (∀ st', arbitrateRoot opts e root st s = .next st' → InvState fs st') ∧
    (∀ res, arbitrateRoot opts e root st s = .done res →
      (res.map (canonOrSelf fs)).Nodup) := by
  unfold arbitrateRoot
  by_cases h0 : s.2 = []
  · rw [if_pos h0]
    constructor
    · intro st' hst'
      cases hst'
      have hinv := h
      unfold InvPair at hinv
      rw [h0, List.append_nil] at hinv
      exact ⟨hinv.1, fun p hp => hinv.2 p hp⟩
    · intro res hres
      exact absurd hres (by simp)
  · rw [if_neg h0]
    by_cases h1 : opts.list = true ∨ e.is_wildcard = true
    · rw [if_pos h1]
      constructor
      · intro st' hst'
        cases hst'
        constructor
        · have := h.1
          rw [List.map_append] at this
          rw [List.map_append]
          exact this
        · intro p hp
          exact h.2 p hp
      · intro res hres
        exact absurd hres (by simp)
    · rw [if_neg h1]
      by_cases h2 : s.2.length = 1
      · rw [if_pos h2]
        constructor
        · intro st' hst'
          exact absurd hst' (by simp)
        · intro res hres
          cases hres
          obtain ⟨a, ha⟩ := List.length_eq_one.mp h2
          rw [ha]
          exact List.nodup_singleton _
      · rw [if_neg h2]
        constructor
        · intro st' hst'
          exact absurd hst' (by simp)
        · intro res hres
          exact absurd hres (by simp)

/-- A conditional between two invariant-preserving states preserves the
invariant. -/
theorem ite_inv {fs : FS} {all : List NPath} {C : Prop} [Decidable C]
    {a b : List NPath × List NPath}
    (ha : InvPair fs all a) (hb : InvPair fs all b) :
    InvPair fs all (if C then a else b) := by
  split
  · exact ha
  · exact hb

/-- The phase B–D pipeline preserves the invariant into the per-root
arbitration. -/
theorem continuePhases_inv (fs : FS) (e : SearchEngine) (opts : SearchOptions)
    (root : NPath) (i : Nat) (st : SState) (s0 : List NPath × List NPath)
    (h : InvPair fs st.all_matches s0) :
    (∀ st', continuePhases fs e opts root i st s0 = .next st' → InvState fs st') ∧
    (∀ res, continuePhases fs e opts root i st s0 = .done res →
      (res.map (canonOrSelf fs)).Nodup) := by
  unfold continuePhases
  apply arbitrateRoot_inv
  have hs1 : InvPair fs st.all_matches
      (if e.is_wildcard = true ∧ i = 0
        then (e.scan_dir fs opts root).foldl (insertMatch fs) s0 else s0) :=
    ite_inv (foldl_insertMatch_inv fs st.all_matches (e.scan_dir fs opts root) s0 h) h
  have hs2 := ite_inv
    (C := (i > 0 ∨ opts.mock_path.isSome = true) ∧ opts.mode ≠ CdMode.Origin)
    (ite_inv (C := e.matches_path root = true)
      (insertMatch_inv fs st.all_matches _ root hs1) hs1) hs1
  exact ite_inv (foldl_insertMatch_inv fs st.all_matches _ _ hs2) hs2

/-- The whole root-loop body preserves the invariant on continuation and
only returns canonically distinct lists on early success. -/
theorem processRoot_inv (fs : FS) (e : SearchEngine) (name : String)
    (opts : SearchOptions) (root : NPath) (i : Nat) (st : SState)
    (h : InvState fs st) :
    (∀ st', processRoot fs e name opts root i st = .next st' → InvState fs st') ∧
    (∀ res, processRoot fs e name opts root i st = .done res →
      (res.map (canonOrSelf fs)).Nodup) := by
  have hpair : InvPair fs st.all_matches (st.dirs, []) := by
    unfold InvPair
    rw [List.append_nil]
    exact ⟨h.1, h.2⟩
  unfold processRoot
  split
  · constructor
    · intro st' hst'
      cases hst'
      exact h
    · intro res hres
      exact absurd hres (by simp)
  · cases hc : (if ¬ e.is_wildcard ∧ name ≠ "" then e.check_direct fs root else none) with
    | none => exact continuePhases_inv fs e opts root i st _ hpair
    | some path =>
      by_cases hex : opts.exact = true
      · constructor
        · intro st' hst'
          rw [hex] at hst'
          simp only [not_true_eq_false, if_false] at hst'
          exact (continuePhases_inv fs e opts root i st _
            (insertMatch_inv fs st.all_matches _ path hpair)).1 st' hst'
        · intro res hres
          rw [hex] at hres
          simp only [not_true_eq_false, if_false] at hres
          exact (continuePhases_inv fs e opts root i st _
            (insertMatch_inv fs st.all_matches _ path hpair)).2 res hres
      · have hex' : opts.exact = false := by simpa using hex
        constructor
        · intro st' hst'
          rw [hex'] at hst'
          simp only [Bool.false_eq_true, not_false_eq_true, if_true] at hst'
          exact absurd hst' (by simp)
        · intro res hres
          rw [hex'] at hres
          simp only [Bool.false_eq_true, not_false_eq_true, if_true] at hres
          have hre : res = [path] := by
            injection hres with h
            exact h.symm
          rw [hre]
          exact List.nodup_singleton _

/-- Any `.ok` outcome of the root loop carries canonically distinct
paths, provided the incoming state satisfies the invariant. -/
theorem searchLoop_nodup (fs : FS) (e : SearchEngine) (name : String)
    (opts : SearchOptions) :
    ∀ (roots : List NPath) (i : Nat) (st : SState) (l : List NPath),
      InvState fs st →
      searchLoop fs e name opts roots i st = .ok l →
      (l.map (canonOrSelf fs)).Nodup := by
  intro roots
  induction roots with
  | nil =>
    intro i st l h hloop
    cases hloop
    exact h.1
  | cons root rest ih =>
    intro i st l h hloop
    simp only [searchLoop] at hloop
    cases hp : processRoot fs e name opts root i st with
    | done res =>
      rw [hp] at hloop
      cases hloop
      exact (processRoot_inv fs e name opts root i st h).2 _ hp
    | amb a =>
      rw [hp] at hloop
      cases hloop
    | next st' =>
      rw [hp] at hloop
      exact ih (i + 1) st' l ((processRoot_inv fs e name opts root i st h).1 st' hp) hloop

/-- C9: the match list returned by one `search_cdpath` call never
contains two paths with the same canonical form — every accumulated
match is guarded by the seen-set keyed on the canonicalised path,
across all roots and phases of the call. -/
theorem search_cdpath_canonically_distinct (fs : FS) (name : String)
    (opts : SearchOptions) (l : List NPath)
    (h : search_cdpath fs name opts = .ok l) :
    (l.map (canonOrSelf fs)).Nodup := by
  unfold search_cdpath at h
  exact searchLoop_nodup fs (SearchEngine.new name opts.exact) name opts
    (get_search_roots fs opts.mock_path) 0 ⟨[], []⟩ l
    ⟨List.nodup_nil, by intro p hp; cases hp⟩ h

/-- Witness for C9 on a concrete call: the wildcard search over `fsEx`
returns three canonically distinct paths. -/
theorem search_cdpath_canonically_distinct_witness :
    search_cdpath fsEx "proj*" optsEx
      = .ok [⟨true, ["w", "proj1"]⟩, ⟨true, ["w", "proj2"]⟩, ⟨true, ["o", "proj"]⟩] ∧
    (([⟨true, ["w", "proj1"]⟩, ⟨true, ["w", "proj2"]⟩,
        (⟨true, ["o", "proj"]⟩ : NPath)].map (canonOrSelf fsEx)).Nodup) :=
  ⟨by decide,
    search_cdpath_canonically_distinct fsEx "proj*" optsEx
      [⟨true, ["w", "proj1"]⟩, ⟨true, ["w", "proj2"]⟩, ⟨true, ["o", "proj"]⟩]
      (by decide)⟩

/-! ## C5 — the compiled wildcard matcher versus anchored glob semantics -/

/-- The three-stage glob translation works one character at a time. -/
theorem transformGlob_cons (c : Char) (l : List Char) :
    transformGlob (c :: l) = emitChar c ++ transformGlob l := by
  by_cases h1 : c = '.'
  · subst h1
    simp [transformGlob, emitChar]
  · by_cases h2 : c = '?'
    · subst h2
      simp [transformGlob, emitChar]
    · by_cases h3 : c = '*'
      · subst h3
        simp [transformGlob, emitChar]
      · simp [transformGlob, emitChar, h1, h2, h3]

/-- The translation of a safe fragment never starts with a quantifier
character. -/
theorem transformGlob_head_not_quant (l : List Char) (hsafe : ∀ c ∈ l, SafeChar c)
    (x : Char) (xs : List Char) (hT : transformGlob l = x :: xs) :
    x ≠ '*' ∧ x ≠ '+' := by
  cases l with
  | nil => simp [transformGlob] at hT
  | cons d rest =>
    rw [transformGlob_cons] at hT
    have hd : SafeChar d := hsafe d (by simp)
    by_cases h1 : d = '.'
    · subst h1
      simp [emitChar] at hT
      rw [← hT.1]
      decide
    · by_cases h2 : d = '?'
      · subst h2
        simp [emitChar] at hT
        rw [← hT.1]
        decide
      · by_cases h3 : d = '*'
        · subst h3
          simp [emitChar] at hT
          rw [← hT.1]
          decide
        · simp [emitChar, h1, h2, h3] at hT
          rw [← hT.1]
          unfold SafeChar at hd
          simp at hd
          exact ⟨h3, by tauto⟩

/-- Parser reduction: an unquantified `.` atom. -/
theorem parseRegex_dot_cons (d : Char) (zs : List Char) (h1 : d ≠ '*') (h2 : d ≠ '+') :
    parseRegex ('.' :: d :: zs)
      = (parseRegex (d :: zs)).map (fun ps => RPiece.once RAtom.any :: ps) := by
  rw [parseRegex.eq_def]
  split
  all_goals simp_all
  rename_i xs c rest hb1 hb2 hnd hs1 hs2 heq
  exact absurd heq.1.symm hnd

/-- Parser reduction: a quantified `.​*` pair. -/
theorem parseRegex_dot_star (zs : List Char) :
    parseRegex ('.' :: '*' :: zs)
      = (parseRegex zs).map (fun ps => RPiece.star RAtom.any :: ps) := rfl

/-- Parser reduction: a final `.` atom. -/
theorem parseRegex_dot_nil : parseRegex ['.'] = some [RPiece.once RAtom.any] := rfl

/-- Parser reduction: an unquantified escaped dot. -/
theorem parseRegex_escdot_cons (d : Char) (zs : List Char) (h1 : d ≠ '*') (h2 : d ≠ '+') :
    parseRegex ('\\' :: '.' :: d :: zs)
      = (parseRegex (d :: zs)).map (fun ps => RPiece.once (RAtom.lit '.') :: ps) := by
  rw [parseRegex.eq_def]
  split
  all_goals simp_all
  · rename_i xs c rest hs1 hs2 heq
    rw [← heq.1, ← heq.2]
    rw [if_neg (by decide)]
  · rename_i xs c rest hb4 hb3 hnd hs1 hs2 heq
    exact (hb3 '.' (d :: zs) heq.1.symm heq.2.symm).elim

/-- Parser reduction: a final escaped dot. -/
theorem parseRegex_escdot_nil :
    parseRegex ['\\', '.'] = some [RPiece.once (RAtom.lit '.')] := by decide

/-- Parser reduction: an unquantified ordinary character. -/
theorem parseRegex_plain_cons (c d : Char) (zs : List Char)
    (hm : c ∉ unsupportedMeta) (hcd : c ≠ '.') (h1 : d ≠ '*') (h2 : d ≠ '+') :
    parseRegex (c :: d :: zs)
      = (parseRegex (d :: zs)).map (fun ps => RPiece.once (RAtom.lit c) :: ps) := by
  have hcb : c ≠ '\\' := fun h => hm (by rw [h]; decide)
  rw [parseRegex.eq_def]
  split
  all_goals simp_all

/-- Parser reduction: a final ordinary character. -/
theorem parseRegex_plain_nil (c : Char) (hm : c ∉ unsupportedMeta) (hcd : c ≠ '.') :
    parseRegex [c] = some [RPiece.once (RAtom.lit c)] := by
  have hcb : c ≠ '\\' := fun h => hm (by rw [h]; decide)
  rw [parseRegex.eq_def]
  split
  all_goals simp_all
  rfl

/-- Compiling the glob translation of a fragment made of safe
characters succeeds and yields exactly the glob's pieces: `*` becomes
an any-star, `?` an any-char, everything else (dots included) a
literal. -/
theorem parseRegex_transformGlob (l : List Char) (hsafe : ∀ c ∈ l, SafeChar c) :
    parseRegex (transformGlob l) = some (fragPieces l) := by
  induction l with
  | nil => rfl
  | cons c rest ih =>
    have hrest : ∀ x ∈ rest, SafeChar x := fun x hx => hsafe x (by simp [hx])
    have hc : SafeChar c := hsafe c (by simp)
    have ihr := ih hrest
    rw [transformGlob_cons]
    by_cases h1 : c = '.'
    · subst h1
      have he : emitChar '.' = ['\\', '.'] := by decide
      rw [he]
      simp only [List.cons_append, List.nil_append]
      cases hT : transformGlob rest with
      | nil =>
        rw [hT] at ihr
        have h0 : some ([] : List RPiece) = some (fragPieces rest) := ihr
        have hfr : fragPieces rest = [] := by
          injection h0 with h
          exact h.symm
        rw [parseRegex_escdot_nil]
        show some [RPiece.once (RAtom.lit '.')]
          = some (RPiece.once (RAtom.lit '.') :: fragPieces rest)
        rw [hfr]
      | cons x xs =>
        rw [hT] at ihr
        have hq := transformGlob_head_not_quant rest hrest x xs hT
        rw [parseRegex_escdot_cons x xs hq.1 hq.2, ihr]
        rfl
    · by_cases h2 : c = '?'
      · subst h2
        have he : emitChar '?' = ['.'] := by decide
        rw [he]
        simp only [List.cons_append, List.nil_append]
        cases hT : transformGlob rest with
        | nil =>
          rw [hT] at ihr
          have h0 : some ([] : List RPiece) = some (fragPieces rest) := ihr
          have hfr : fragPieces rest = [] := by
            injection h0 with h
            exact h.symm
          rw [parseRegex_dot_nil]
          show some [RPiece.once RAtom.any]
            = some (RPiece.once RAtom.any :: fragPieces rest)
          rw [hfr]
        | cons x xs =>
          rw [hT] at ihr
          have hq := transformGlob_head_not_quant rest hrest x xs hT
          rw [parseRegex_dot_cons x xs hq.1 hq.2, ihr]
          rfl
      · by_cases h3 : c = '*'
        · subst h3
          have he : emitChar '*' = ['.', '*'] := by decide
          rw [he]
          simp only [List.cons_append, List.nil_append]
          rw [parseRegex_dot_star, ihr]
          rfl
        · have hm : c ∉ unsupportedMeta := by
            unfold SafeChar at hc
            unfold unsupportedMeta
            simp only [List.mem_cons, List.not_mem_nil, or_false] at hc ⊢
            tauto
          have he : emitChar c = [c] := by
            simp [emitChar, h1, h2, h3]
          rw [he]
          simp only [List.cons_append, List.nil_append]
          cases hT : transformGlob rest with
          | nil =>
            rw [hT] at ihr
            have h0 : some ([] : List RPiece) = some (fragPieces rest) := ihr
            have hfr : fragPieces rest = [] := by
              injection h0 with h
              exact h.symm
            rw [parseRegex_plain_nil c hm h1]
            show some [RPiece.once (RAtom.lit c)]
              = some (fragPieces (c :: rest))
            rw [show fragPieces (c :: rest)
              = RPiece.once (RAtom.lit c) :: fragPieces rest from by
                simp [fragPieces, h2, h3], hfr]
          | cons x xs =>
            rw [hT] at ihr
            have hq := transformGlob_head_not_quant rest hrest x xs hT
            rw [parseRegex_plain_cons c x xs hm h1 hq.1 hq.2, ihr]
            show some (RPiece.once (RAtom.lit c) :: fragPieces rest)
              = some (fragPieces (c :: rest))
            rw [show fragPieces (c :: rest)
              = RPiece.once (RAtom.lit c) :: fragPieces rest from by
                simp [fragPieces, h2, h3]]

/-- The fuelled regex matcher on glob-shaped pieces coincides with the
fuelled glob matcher, fuel for fuel. -/
theorem rmatchF_eq_globMatchF :
    ∀ (f : Nat) (ts : List GlobTok) (cs : List Char),
      rmatchF f (ts.map pieceOfTok) cs = globMatchF f ts cs := by
  intro f
  induction f with
  | zero => intro ts cs; rfl
  | succ f ih =>
    intro ts cs
    cases ts with
    | nil => cases cs <;> rfl
    | cons t ts' =>
      cases t with
      | lit c =>
        cases cs with
        | nil => rfl
        | cons x xs =>
          show (RAtom.matches (RAtom.lit c) x && rmatchF f (ts'.map pieceOfTok) xs)
            = ((x == c) && globMatchF f ts' xs)
          rw [ih ts' xs]
          rfl
      | one =>
        cases cs with
        | nil => rfl
        | cons x xs =>
          show (RAtom.matches RAtom.any x && rmatchF f (ts'.map pieceOfTok) xs)
            = globMatchF f ts' xs
          rw [ih ts' xs]
          simp [RAtom.matches]
      | many =>
        cases cs with
        | nil =>
          show (rmatchF f (ts'.map pieceOfTok) [] || false)
            = (globMatchF f ts' [] || false)
          rw [ih ts' []]
        | cons x xs =>
          show (rmatchF f (ts'.map pieceOfTok) (x :: xs) ||
              (RAtom.matches RAtom.any x &&
                rmatchF f (RPiece.star RAtom.any :: ts'.map pieceOfTok) xs))
            = (globMatchF f ts' (x :: xs) || globMatchF f (GlobTok.many :: ts') xs)
          rw [ih ts' (x :: xs)]
          rw [show RPiece.star RAtom.any :: ts'.map pieceOfTok
            = (GlobTok.many :: ts').map pieceOfTok from rfl]
          rw [ih (GlobTok.many :: ts') xs]
          simp [RAtom.matches]

/-- Case folding commutes with reading the glob pieces off a fragment. -/
theorem fragPieces_fold (ex : Bool) (l : List Char) :
    (fragPieces l).map (RPiece.fold ex)
      = ((globToks l).map (GlobTok.fold ex)).map pieceOfTok := by
  induction l with
  | nil => rfl
  | cons c rest ih =>
    by_cases h1 : c = '*'
    · subst h1
      simp only [fragPieces, globToks, List.map_cons] at *
      simp [RPiece.fold, GlobTok.fold, pieceOfTok, ih]
    · by_cases h2 : c = '?'
      · subst h2
        simp only [fragPieces, globToks, List.map_cons] at *
        simp [RPiece.fold, GlobTok.fold, pieceOfTok, ih]
      · simp only [fragPieces, globToks, List.map_cons] at *
        simp [RPiece.fold, GlobTok.fold, pieceOfTok, ih, h1, h2]

/-- Counterexample to C5 as stated: the fragment `a+*` contains `*`, so
it is compiled — but the untouched `+` becomes a regex quantifier, and
the engine accepts the name `aa` (one-or-more `a`s then anything),
which the glob reading of `a+*` (a literal `a`, a literal `+`, then
anything) rejects. -/
theorem wildcard_matcher_not_glob :
    (SearchEngine.new "a+*" true).is_wildcard = true ∧
    (SearchEngine.new "a+*" true).isMatchName optsEx "aa" = true ∧
    glob_accepts "a+*" "aa" true = false := by decide

/-- C5 (amended): for every wildcard fragment whose characters are free
of the regex metacharacters the translation leaves unescaped
(`\\ ( ) [ ] { } | ^ $ +`), the compiled matcher accepts a directory
name exactly when the whole name matches the glob — dots literal, `?`
one character, `*` any sequence — with case folding exactly when
`exact` is false.  Fragments containing those metacharacters may
diverge from glob semantics (see the counterexample). -/
theorem wildcard_matcher_is_anchored_glob (frag name : String) (ex : Bool)
    (opts : SearchOptions)
    (hsafe : ∀ c ∈ frag.data, SafeChar c)
    (hw : (SearchEngine.new frag ex).is_wildcard = true) :
    (SearchEngine.new frag ex).isMatchName opts name = glob_accepts frag name ex := by
  have hre : (SearchEngine.new frag ex).re = some (fragPieces frag.data) := by
    have hform : (SearchEngine.new frag ex).re
        = (if (frag.data.contains '*' || frag.data.contains '?') = true
            then parseRegex (transformGlob frag.data) else none) := rfl
    have hw' : (frag.data.contains '*' || frag.data.contains '?') = true := hw
    rw [hform, if_pos hw']
    exact parseRegex_transformGlob frag.data hsafe
  unfold SearchEngine.isMatchName
  rw [hre]
  show (SearchEngine.new frag ex).reMatch (fragPieces frag.data) name
    = glob_accepts frag name ex
  unfold SearchEngine.reMatch
  have hex : (SearchEngine.new frag ex).exact = ex := rfl
  rw [hex]
  unfold rmatch
  rw [fragPieces_fold ex frag.data]
  rw [rmatchF_eq_globMatchF]
  rw [List.length_map]
  rfl

/-- Witness for the amended C5: `v1.0*` does not match `v1-0_release`
(the dot stays literal) but does match `V1.0_release` case-folded. -/
theorem wildcard_matcher_is_anchored_glob_witness :
    (SearchEngine.new "v1.0*" false).isMatchName optsEx "v1-0_release"
      = glob_accepts "v1.0*" "v1-0_release" false ∧
    glob_accepts "v1.0*" "v1-0_release" false = false ∧
    (SearchEngine.new "v1.0*" false).isMatchName optsEx "V1.0_release"
      = glob_accepts "v1.0*" "V1.0_release" false ∧
    glob_accepts "v1.0*" "V1.0_release" false = true :=
  ⟨wildcard_matcher_is_anchored_glob "v1.0*" "v1-0_release" false optsEx
      (by decide) (by decide),
    by decide,
    wildcard_matcher_is_anchored_glob "v1.0*" "V1.0_release" false optsEx
      (by decide) (by decide),
    by decide⟩
